import Mathlib

/-!
# A shallow embedding of the `serde_mosaic` persistence core

This file models the link-resolution engine of the `serde_mosaic` crate
(`src/database_manager.rs`, `src/attributes.rs`) and proves the spec's claims
about it.

Modelling conventions:
* The external `Format` collaborator (out of the spec's core scope) is
  modelled as a strict structural codec: a serialized file stores the
  structured document (`Doc`) it encodes, and `Format::deserialize` returns
  that document.  A `Doc` plays the role of the byte string produced by
  `Format::serialize`; its type tag (`Doc.cat`) models the `typetag` tag
  embedded by `#[typetag::serde]`.
* The file system is an association list from paths to documents.  A path is
  the pair (type folder, file stem); the database root directory and the
  format's file extension are fixed affixes of every real path and are
  dropped (they never influence path equality).
* `adler32` checksums are modelled by a structural fingerprint `docChecksum`
  of the stored document; like the real checksum it is deterministic in the
  file contents (collisions are irrelevant to every claim proved here).
* The serde visitors `serialize_link` / `deserialize_link` are inlined into
  the recursive write / read functions, exactly following the control flow of
  `WriteContext::write`, `ReadContext::read` and the visitors in
  `attributes.rs`.  A link value `SVal.link cat name checksum` records, next
  to the wire fields `name` and `checksum` of `DatabaseLink`, the static
  category `cat` of the annotated field (`type_name::<T>()` in
  `deserialize_link`), which in Rust lives in the field's type, not on the
  wire.
-/

namespace SerdeMosaic

mutual
/-- An in-memory entity (`T : DatabaseEntry` in the source): a category
(`type_name::<T>()`), the name returned by `DatabaseEntry::name`, and its
fields. -/
inductive Entity where
  | mk (cat name : String) (fields : Fields)
  deriving DecidableEq

/-- The field list of an entity: `pcons` is an ordinary serde field, `lcons`
is a field annotated with `serialize_with = "serialize_link"` /
`deserialize_with = "deserialize_link"`. -/
inductive Fields where
  | nil
  | pcons (data : String) (rest : Fields)
  | lcons (child : Entity) (rest : Fields)
  deriving DecidableEq
end

def Entity.cat : Entity → String
  | .mk c _ _ => c

def Entity.name : Entity → String
  | .mk _ n _ => n

def Entity.fields : Entity → Fields
  | .mk _ _ f => f

@[simp]
theorem entityCat_mk (c n : String) (f : Fields) :
    (Entity.mk c n f).cat = c := rfl

@[simp]
theorem entityName_mk (c n : String) (f : Fields) :
    (Entity.mk c n f).name = n := rfl

@[simp]
theorem entityFields_mk (c n : String) (f : Fields) :
    (Entity.mk c n f).fields = f := rfl

mutual
/-- A serialized document (the contents of one database file). -/
inductive Doc where
  | mk (cat name : String) (fields : SVals)
  deriving DecidableEq

/-- A list of serialized field values. -/
inductive SVals where
  | nil
  | cons (v : SVal) (rest : SVals)
  deriving DecidableEq

/-- One serialized field value: plain data, a `DatabaseLink` (wire fields
`name` and optional `checksum`; `cat` is the static type of the annotated
field), or an inline entity document. -/
inductive SVal where
  | plain (data : String)
  | link (cat name : String) (checksum : Option Nat)
  | inlineDoc (doc : Doc)
  deriving DecidableEq
end

def Doc.cat : Doc → String
  | .mk c _ _ => c

def Doc.name : Doc → String
  | .mk _ n _ => n

def Doc.fields : Doc → SVals
  | .mk _ _ f => f

@[simp]
theorem docCat_mk (c n : String) (f : SVals) : (Doc.mk c n f).cat = c := rfl

@[simp]
theorem docName_mk (c n : String) (f : SVals) :
    (Doc.mk c n f).name = n := rfl

@[simp]
theorem docFields_mk (c n : String) (f : SVals) :
    (Doc.mk c n f).fields = f := rfl

/-- A database path: (folder = category, file stem). -/
abbrev DbPath := String × String

/-- The file-system state of one database: an association list from paths to
the documents stored there. -/
abbrev FS := List (DbPath × Doc)

def fsGet {α : Type} : List (DbPath × α) → DbPath → Option α
  | [], _ => none
  | (q, d) :: rest, p => if q = p then some d else fsGet rest p

def fsErase {α : Type} : List (DbPath × α) → DbPath → List (DbPath × α)
  | [], _ => []
  | (q, d) :: rest, p =>
      if q = p then fsErase rest p else (q, d) :: fsErase rest p

/-- Store a document at a path (`File::create` followed by `write_all`:
creates the file or replaces its previous contents). -/
def fsSet {α : Type} (fs : List (DbPath × α)) (p : DbPath) (d : α) :
    List (DbPath × α) := (p, d) :: fsErase fs p

theorem fsGet_fsErase {α : Type} (fs : List (DbPath × α)) (p q : DbPath) :
    fsGet (fsErase fs p) q = if p = q then none else fsGet fs q := by
  induction fs with
  | nil => simp [fsErase, fsGet]
  | cons hd tl ih =>
      obtain ⟨r, d⟩ := hd
      by_cases hrp : r = p
      · subst hrp
        by_cases hrq : r = q
        · subst hrq
          simp [fsErase, fsGet, ih]
        · simp [fsErase, fsGet, hrq, ih]
      · by_cases hrq : r = q
        · subst hrq
          have hpq : ¬p = r := fun h => hrp h.symm
          simp [fsErase, fsGet, hrp, hpq]
        · simp [fsErase, fsGet, hrp, hrq, ih]

theorem fsGet_fsSet_same {α : Type} (fs : List (DbPath × α)) (p : DbPath)
    (d : α) : fsGet (fsSet fs p d) p = some d := by
  simp [fsSet, fsGet]

theorem fsGet_fsSet_ne {α : Type} (fs : List (DbPath × α)) (p q : DbPath)
    (d : α) (h : p ≠ q) : fsGet (fsSet fs p d) q = fsGet fs q := by
  simp [fsSet, fsGet, fun h' : p = q => h h', fsGet_fsErase, h]

theorem fsErase_of_absent {α : Type} (fs : List (DbPath × α)) (p : DbPath)
    (h : fsGet fs p = none) : fsErase fs p = fs := by
  induction fs with
  | nil => simp [fsErase]
  | cons hd tl ih =>
      obtain ⟨q, d⟩ := hd
      by_cases hq : q = p
      · simp [fsGet, hq] at h
      · simp only [fsGet, hq, if_neg] at h
        simp [fsErase, hq, ih h]

mutual
/-- Structural size of a document; used as the modelled checksum. -/
def docSize : Doc → Nat
  | .mk c n f => c.length + n.length + svalsSize f + 1

def svalsSize : SVals → Nat
  | .nil => 0
  | .cons v rest => svalSize v + svalsSize rest + 1

def svalSize : SVal → Nat
  | .plain d => d.length + 1
  | .link c n cs => c.length + n.length + (cs.getD 0) + 2
  | .inlineDoc d => docSize d + 3
end

/-- Models `adler32` of the file's bytes (`checksum` in
`database_manager.rs`): a deterministic fingerprint of the stored
document. -/
def docChecksum (d : Doc) : Nat := docSize d % 4294967296

/-- `checksum(path)`: `None` iff there is no readable file at the path. -/
def fsChecksum (fs : FS) (p : DbPath) : Option Nat :=
  (fsGet fs p).map docChecksum

/-! ## Write options (`WriteOptions`, `NameCollisions`, `WriteMode`) -/

inductive NameCollisions where
  | overwrite
  | keepExisting
  | adjustName
  deriving DecidableEq

inductive WriteMode where
  | flat
  | link
  deriving DecidableEq

/-- `WriteOptions`: the alias `HashMap<OsString, OsString>` is modelled as an
association list. -/
structure WriteOptions where
  nameCollisions : NameCollisions
  writeMode : WriteMode
  aliasMap : List (String × String)
  deriving DecidableEq

def aliasLookup : List (String × String) → String → Option String
  | [], _ => none
  | (k, v) :: rest, s => if k = s then some v else aliasLookup rest s

/-- `WriteOptions::name`: the effective written name of an instance — its
`DatabaseEntry::name` looked up in the alias map, falling back to itself. -/
def WriteOptions.effName (opts : WriteOptions) (nm : String) : String :=
  (aliasLookup opts.aliasMap nm).getD nm

/-- The default `WriteOptions`. -/
def WriteOptions.default : WriteOptions :=
  { nameCollisions := .keepExisting, writeMode := .link, aliasMap := [] }

/-! ## Decimal numerals (for `format!("_{}", counter)` in the AdjustName arm) -/

def digitChar (d : Nat) : Char := Char.ofNat (48 + d)

/-- The decimal digit string of `n`, most significant digit first. -/
def decimalChars (n : Nat) : List Char :=
  if _h : n < 10 then [digitChar n]
  else decimalChars (n / 10) ++ [digitChar (n % 10)]
  decreasing_by exact Nat.div_lt_self (by omega) (by omega)

/-- The candidate file stem probed by the `NameCollisions::AdjustName` arm:
`name_k` with `k` printed in decimal. -/
def suffixName (nm : String) (k : Nat) : String :=
  nm ++ "_" ++ String.mk (decimalChars k)

/-- The probing loop of the `AdjustName` arm: starting at counter `k`, return
the first counter whose candidate path is unused.  The Rust loop is unbounded
but, the file system being finite, always terminates; `fuel` is only a
termination device and every use supplies enough of it. -/
def probeFrom (fs : FS) (cat nm : String) : Nat → Nat → Nat
  | 0, k => k
  | fuel + 1, k =>
      if fsGet fs (cat, suffixName nm k) = none then k
      else probeFrom fs cat nm fuel (k + 1)

/-! ## The write path (`WriteContext::write` and `serialize_link`) -/

/-- One entry of the `WriteInfo` diagnostics, in the order the events were
logged by `RwInfo` (the Rust code pushes to three separate vectors; filtering
this single chronological list recovers them). -/
inductive WEvent where
  | created (p : DbPath)
  | kept (p : DbPath)
  | overwritten (p : DbPath)
  deriving DecidableEq

mutual
/-- Serialization of an entity with no write context, or under
`WriteMode::Flat`: every link-annotated field is inlined
(`instance.serialize(serializer)` straight through `serialize_link`). -/
def flatDoc : Entity → Doc
  | .mk cat nm flds => .mk cat nm (flatFields flds)

def flatFields : Fields → SVals
  | .nil => .nil
  | .pcons d rest => .cons (.plain d) (flatFields rest)
  | .lcons c rest => .cons (.inlineDoc (flatDoc c)) (flatFields rest)
end

mutual
/-- `WriteContext::write` (database_manager.rs:1080-1186) fused with
`serialize_link` (attributes.rs:140-180).  Returns the final file system, the
chronological `RwInfo` write events, and the path of the written file.

Control flow mirrored from the source:
1. serialize the instance — during which every link-annotated field (in
   `WriteMode::Link`) recursively persists its child *first* and embeds a
   `DatabaseLink` built from `instance.name()` (the *unaliased* name,
   `DatabaseLink::new`) and the checksum of the just-written file;
2. alias-substitute the instance's own name (`write_options.name`);
3. apply the collision policy and store the serialized document. -/
def ctxWrite (opts : WriteOptions) (e : Entity) (fs : FS) :
    FS × List WEvent × DbPath :=
  match e with
  | .mk cat nm0 flds =>
      let r1 := serFields opts flds fs
      let data : Doc := .mk cat nm0 r1.2.2
      let nm := opts.effName nm0
      let canonical : DbPath := (cat, nm)
      let fileExists := (fsGet r1.1 canonical).isSome
      match opts.nameCollisions with
      | .overwrite =>
          (fsSet r1.1 canonical data,
           r1.2.1 ++ [if fileExists then .overwritten canonical
                      else .created canonical],
           canonical)
      | .keepExisting =>
          if fileExists then (r1.1, r1.2.1 ++ [.kept canonical], canonical)
          else (fsSet r1.1 canonical data, r1.2.1 ++ [.created canonical],
                canonical)
      | .adjustName =>
          if fileExists then
            let k := probeFrom r1.1 cat nm (r1.1.length + 1) 0
            let p : DbPath := (cat, suffixName nm k)
            (fsSet r1.1 p data, r1.2.1 ++ [.created p], p)
          else (fsSet r1.1 canonical data, r1.2.1 ++ [.created canonical],
                canonical)

def serFields (opts : WriteOptions) (flds : Fields) (fs : FS) :
    FS × List WEvent × SVals :=
  match flds with
  | .nil => (fs, [], .nil)
  | .pcons d rest =>
      let r := serFields opts rest fs
      (r.1, r.2.1, .cons (.plain d) r.2.2)
  | .lcons c rest =>
      match opts.writeMode with
      | .flat =>
          let r := serFields opts rest fs
          (r.1, r.2.1, .cons (.inlineDoc (flatDoc c)) r.2.2)
      | .link =>
          let r1 := ctxWrite opts c fs
          let cs := fsChecksum r1.1 r1.2.2
          let r2 := serFields opts rest r1.1
          (r2.1, r1.2.1 ++ r2.2.1, .cons (.link c.cat c.name cs) r2.2.2)
end

/-! ## The read path (`ReadContext::read` and `deserialize_link`) -/

/-- The error kinds surfaced by the read path (§7 of the spec). `outOfFuel`
is a modelling artefact standing for non-termination of the unbounded Rust
recursion; every theorem below supplies enough fuel to rule it out. -/
inductive DbError where
  | notFound
  | invalidData
  | noActiveContext
  | ioFailure
  | outOfFuel
  deriving DecidableEq

/-- One `ChecksumMismatch` diagnostic: the checksum stored in the link, the
checksum of the linked file's current contents, and the file's path. -/
structure Mismatch where
  inLink : Nat
  ofFile : Nat
  path : DbPath
  deriving DecidableEq

/-- `DatabaseLink::test_for_checksum_mismatch` (database_manager.rs:1366-1377):
produces a diagnostic when the link carries a checksum and the file is
readable.  Note that the source never compares the two checksums — the
diagnostic is produced even when they are equal. -/
def testForChecksumMismatch (cs : Option Nat) (fileCs : Option Nat)
    (p : DbPath) : List Mismatch :=
  match cs, fileCs with
  | some a, some b => [⟨a, b, p⟩]
  | _, _ => []

/-- The kind of recursive decode step being performed: resolving a file by
(static type, stem) — `ReadContext::read` — or decoding one document, or
decoding a serialized field list (the `deserialize_link` visitor body). -/
inductive DecodeReq where
  | readReq (cat nm : String)
  | docReq (d : Doc)
  | svalsReq (svs : SVals)

/-- The result carried by each kind of decode step. -/
abbrev DecodeRes : DecodeReq → Type
  | .readReq _ _ => Entity
  | .docReq _ => Entity
  | .svalsReq _ => Fields

/-- The fused recursion of the read path: `ReadContext::read`
(database_manager.rs:1205-1249) interleaved with the `deserialize_link`
visitor (attributes.rs:281-354, once per annotated field).  `ctx` is the
thread-local `READ_CONTEXT` (`some fs` while inside a manager's read,
`none` when the deserializer runs stand-alone); it never changes within one
call chain.  `fuel` bounds the recursion depth: it stands for the unbounded
Rust recursion, burns one unit per step, and every theorem below supplies
enough of it.  Mirrored control flow:
* `readReq`: resolve the path for (static type `cat`, stem `nm`), load the
  file, decode it, and downcast to the requested type (the file's `typetag`
  tag must equal `cat`, else `InvalidData`);
* `docReq`: decode one document into an entity field by field;
* `svalsReq`: an inline entity decodes in place with no context need; a
  `DatabaseLink` requires an active read context (else `NoActiveContext`),
  tests for a checksum mismatch — a non-fatal diagnostic — and then reads
  the linked file. -/
def decodeF (ctx : Option FS) : (fuel : Nat) → (r : DecodeReq) →
    Except DbError (DecodeRes r × List Mismatch)
  | 0, _ => .error .outOfFuel
  | fuel + 1, .readReq cat nm =>
      match ctx with
      | none => .error .noActiveContext
      | some fs =>
          match fsGet fs (cat, nm) with
          | none => .error .notFound
          | some d =>
              if d.cat = cat then decodeF ctx fuel (.docReq d)
              else .error .invalidData
  | fuel + 1, .docReq d =>
      match d with
      | .mk cat nm flds =>
          match decodeF ctx fuel (.svalsReq flds) with
          | .ok (fr, ms) => .ok (.mk cat nm fr, ms)
          | .error er => .error er
  | fuel + 1, .svalsReq svs =>
      match svs with
      | .nil => .ok (.nil, [])
      | .cons (.plain dd) rest =>
          match decodeF ctx fuel (.svalsReq rest) with
          | .ok (fr, ms) => .ok (.pcons dd fr, ms)
          | .error er => .error er
      | .cons (.inlineDoc dc) rest =>
          match decodeF ctx fuel (.docReq dc) with
          | .ok (ent, ms1) =>
              match decodeF ctx fuel (.svalsReq rest) with
              | .ok (fr, ms2) => .ok (.lcons ent fr, ms1 ++ ms2)
              | .error er => .error er
          | .error er => .error er
      | .cons (.link cat nm cs) rest =>
          match ctx with
          | none => .error .noActiveContext
          | some fs =>
              let ms0 := testForChecksumMismatch cs (fsChecksum fs (cat, nm))
                (cat, nm)
              match decodeF ctx fuel (.readReq cat nm) with
              | .ok (ent, ms1) =>
                  match decodeF ctx fuel (.svalsReq rest) with
                  | .ok (fr, ms2) => .ok (.lcons ent fr, ms0 ++ ms1 ++ ms2)
                  | .error er => .error er
              | .error er => .error er

/-- `ReadContext::read`: resolve, load and decode the file for
(static type `cat`, file stem `nm`), returning the decoded entity together
with the `ChecksumMismatch` diagnostics pushed to the thread-local `RwInfo`
(handed out as `ReadInfo` by `read_verbose`). -/
def readByKey (fs : FS) (fuel : Nat) (cat nm : String) :
    Except DbError (Entity × List Mismatch) :=
  decodeF (some fs) fuel (.readReq cat nm)

/-- Decode one document into an entity. -/
def decodeDoc (ctx : Option FS) (fuel : Nat) (d : Doc) :
    Except DbError (Entity × List Mismatch) :=
  decodeF ctx fuel (.docReq d)

/-- Decode a serialized field list. -/
def decodeSVals (ctx : Option FS) (fuel : Nat) (svs : SVals) :
    Except DbError (Fields × List Mismatch) :=
  decodeF ctx fuel (.svalsReq svs)

/-! ## Frame property of `KeepExisting` writes -/

mutual
/-- Under `NameCollisions::KeepExisting` a write never removes or modifies an
existing file: it only creates files at previously unused paths. -/
theorem keepPreserves_write (opts : WriteOptions)
    (hpol : opts.nameCollisions = .keepExisting) (e : Entity) (fs : FS)
    (p : DbPath) (d : Doc) (h : fsGet fs p = some d) :
    fsGet (ctxWrite opts e fs).1 p = some d := by
  match e with
  | .mk cat nm0 flds =>
      have hf := keepPreserves_fields opts hpol flds fs p d h
      by_cases hex : (fsGet (serFields opts flds fs).1
          (cat, opts.effName nm0)).isSome
      · simp [ctxWrite, hpol, hex, hf]
      · have hne : (cat, opts.effName nm0) ≠ p := by
          intro heq
          rw [heq, hf] at hex
          simp at hex
        simp [ctxWrite, hpol, hex, fsGet_fsSet_ne _ _ _ _ hne, hf]

theorem keepPreserves_fields (opts : WriteOptions)
    (hpol : opts.nameCollisions = .keepExisting) (flds : Fields) (fs : FS)
    (p : DbPath) (d : Doc) (h : fsGet fs p = some d) :
    fsGet (serFields opts flds fs).1 p = some d := by
  match flds with
  | .nil => simpa [serFields] using h
  | .pcons dd rest =>
      have := keepPreserves_fields opts hpol rest fs p d h
      simpa [serFields] using this
  | .lcons c rest =>
      match hm : opts.writeMode with
      | .flat =>
          have := keepPreserves_fields opts hpol rest fs p d h
          simpa [serFields, hm] using this
      | .link =>
          have h1 := keepPreserves_write opts hpol c fs p d h
          have h2 := keepPreserves_fields opts hpol rest
            (ctxWrite opts c fs).1 p d h1
          simpa [serFields, hm] using h2
end

/-! ## Byte-level model of the file write (database_manager.rs:1167-1186) -/

/-- A file system at byte granularity (file contents as byte lists), for the
partial-write analysis. -/
abbrev ByteFS := List (DbPath × List Nat)

/-- `File::create` + `file.write_all(&data)` + error cleanup, mirroring
database_manager.rs:1167-1186.  `File::create` truncates or creates the file;
`failAfter = some k` models `write_all` failing after `k` bytes were written
(`none` is a successful write).  On failure the source removes the partially
written file (`remove_file(&file_path)?`) and propagates the error. -/
def persistBytes (fs : ByteFS) (p : DbPath) (data : List Nat)
    (failAfter : Option Nat) : Except DbError Unit × ByteFS :=
  let fs1 := fsSet fs p []
  match failAfter with
  | none => (.ok (), fsSet fs1 p data)
  | some k =>
      let fs2 := fsSet fs1 p (data.take k)
      (.error .ioFailure, fsErase fs2 p)

/-! ## The `from_str` entry point and the thread-local context lifecycle -/

/-- A Rust `TypeId`.  `entityType c` is the concrete `DatabaseEntry`
implementor whose `type_name` is `c`; `ioResultType t` is
`std::io::Result<T>` for the entity type named `t`.  The two are always
distinct types (no `DatabaseEntry` implementor is an `io::Result`: the orphan
rule forbids such an impl outside the crate, and the crate has none). -/
inductive RustTypeId where
  | entityType (cat : String)
  | ioResultType (cat : String)
  deriving DecidableEq

/-- `DatabaseManager::from_str` (database_manager.rs:1005-1041), reduced to
its context lifecycle and downcast logic.  `parsed` is the outcome of
`format.deserialize` on the input string (`none`: parse error).  Two details
mirrored from the source:
* type inference forces the `val.downcast()` target to `io::Result<T>` (the
  `Ok` arm `*val` must have the type of the `Err(..)` arm, which is the
  closure's return type `io::Result<T>`), so the downcast compares the
  deserialized entity's `TypeId` with `RustTypeId.ioResultType target`;
* the `Err(_)` arm of the downcast does `return Err(..)` *from the closure*,
  which skips the trailing `thread_context.set(None)`; only the parse-error
  path and the (unreachable) successful-downcast path clear the context.
The second component of the result is the value of the thread-local
`READ_CONTEXT` after the call returns. -/
def fromStrModel (target : String) (parsed : Option Doc) :
    Except DbError Doc × Option Unit :=
  -- thread_context.set(Some(context.clone()))
  let ctx : Option Unit := some ()
  match parsed with
  | none =>
      -- `result` is the deserialize error; `thread_context.set(None)` runs
      (.error .invalidData, none)
  | some d =>
      if RustTypeId.entityType d.cat = RustTypeId.ioResultType target then
        -- successful downcast: `thread_context.set(None)` runs
        (.ok d, none)
      else
        -- failed downcast: early `return Err(..)` skips the context reset
        (.error .invalidData, ctx)

/-- `DatabaseManager::write_verbose_log` (database_manager.rs:895-923),
reduced to its context lifecycle: the context is set, `context.write` runs
(its outcome, success or failure, is captured as a value), and the context is
unconditionally cleared before returning.  The second component is the value
of the thread-local `WRITE_CONTEXT` after the call returns. -/
def writeVerboseLogModel (opts : WriteOptions) (e : Entity) (fs : FS) :
    (FS × List WEvent × DbPath) × Option Unit :=
  let _ctx : Option Unit := some ()
  let result := ctxWrite opts e fs
  -- thread_context.set(None)
  (result, none)

/-- `DatabaseManager::read_verbose_log` (database_manager.rs:968-995), reduced
to its context lifecycle, analogous to `writeVerboseLogModel`. -/
def readVerboseLogModel (fs : FS) (fuel : Nat) (cat nm : String) :
    Except DbError (Entity × List Mismatch) × Option Unit :=
  let _ctx : Option Unit := some ()
  let result := readByKey fs fuel cat nm
  -- thread_context.set(None)
  (result, none)

/-- The `write` and `read` entry points do clear the thread-local context on
both their exit paths. -/
theorem writeRead_clear_context (opts : WriteOptions) (e : Entity) (fs : FS)
    (fuel : Nat) (cat nm : String) :
    (writeVerboseLogModel opts e fs).2 = none ∧
    (readVerboseLogModel fs fuel cat nm).2 = none := by
  exact ⟨rfl, rfl⟩

/-! ## Link-free documents (inline decoding without a context) -/

mutual
/-- A document containing no `DatabaseLink` anywhere (a fully inline
serialization). -/
def linkFreeDoc : Doc → Bool
  | .mk _ _ f => linkFreeSVals f

def linkFreeSVals : SVals → Bool
  | .nil => true
  | .cons (.plain _) rest => linkFreeSVals rest
  | .cons (.link _ _ _) _ => false
  | .cons (.inlineDoc d) rest => linkFreeDoc d && linkFreeSVals rest
end

mutual
/-- Fuel sufficient to decode a document without reading any file. -/
def docNeed : Doc → Nat
  | .mk _ _ f => svalsNeed f + 1

def svalsNeed : SVals → Nat
  | .nil => 1
  | .cons (.plain _) rest => svalsNeed rest + 1
  | .cons (.link _ _ _) rest => svalsNeed rest + 1
  | .cons (.inlineDoc d) rest => max (docNeed d) (svalsNeed rest) + 1
end

mutual
theorem decodeDoc_no_context (d : Doc) (fuel : Nat)
    (h : linkFreeDoc d = true) (hfuel : docNeed d ≤ fuel) :
    ∃ ent, decodeDoc none fuel d = .ok (ent, []) := by
  match d, fuel with
  | .mk cat nm f, fuel =>
      match fuel, hfuel with
      | fuel + 1, hfuel =>
          obtain ⟨fr, hfr⟩ := decodeSVals_no_context f fuel
            (by simpa [linkFreeDoc] using h)
            (by simp only [docNeed] at hfuel; omega)
          refine ⟨.mk cat nm fr, ?_⟩
          have hfr2 : decodeF none fuel (.svalsReq f) = .ok (fr, []) := hfr
          simp [decodeDoc, decodeF, hfr2]

theorem decodeSVals_no_context (svs : SVals) (fuel : Nat)
    (h : linkFreeSVals svs = true) (hfuel : svalsNeed svs ≤ fuel) :
    ∃ fr, decodeSVals none fuel svs = .ok (fr, []) := by
  match svs, fuel with
  | .nil, fuel =>
      match fuel, hfuel with
      | fuel + 1, _ => exact ⟨.nil, by simp [decodeSVals, decodeF]⟩
  | .cons (.plain dd) rest, fuel =>
      match fuel, hfuel with
      | fuel + 1, hfuel =>
          obtain ⟨fr, hfr⟩ := decodeSVals_no_context rest fuel
            (by simpa [linkFreeSVals] using h)
            (by simp only [svalsNeed] at hfuel; omega)
          refine ⟨.pcons dd fr, ?_⟩
          have hfr2 : decodeF none fuel (.svalsReq rest) = .ok (fr, []) := hfr
          simp [decodeSVals, decodeF, hfr2]
  | .cons (.link c n cs) rest, fuel => simp [linkFreeSVals] at h
  | .cons (.inlineDoc dc) rest, fuel =>
      match fuel, hfuel with
      | fuel + 1, hfuel =>
          have h' : linkFreeDoc dc = true ∧ linkFreeSVals rest = true := by
            simpa [linkFreeSVals, Bool.and_eq_true] using h
          obtain ⟨ent, hent⟩ := decodeDoc_no_context dc fuel h'.1
            (by simp only [svalsNeed] at hfuel; omega)
          obtain ⟨fr, hfr⟩ := decodeSVals_no_context rest fuel h'.2
            (by simp only [svalsNeed] at hfuel; omega)
          refine ⟨.lcons ent fr, ?_⟩
          have hent2 : decodeF none fuel (.docReq dc) = .ok (ent, []) := hent
          have hfr2 : decodeF none fuel (.svalsReq rest) = .ok (fr, []) := hfr
          simp [decodeSVals, decodeF, hent2, hfr2]
end

/-! ## Canonical serialization and the round trip -/

mutual
/-- The canonical `WriteMode::Link` serialization of an entity: every
link-annotated child is replaced by a `DatabaseLink` carrying the child's
name and the checksum of the child's canonical file. -/
def canonDoc : Entity → Doc
  | .mk cat nm flds => .mk cat nm (canonFields flds)

def canonFields : Fields → SVals
  | .nil => .nil
  | .pcons d rest => .cons (.plain d) (canonFields rest)
  | .lcons c rest =>
      .cons (.link c.cat c.name (some (docChecksum (canonDoc c))))
        (canonFields rest)
end

mutual
/-- Every entity of the graph rooted at `e`, including `e` itself. -/
def entities : Entity → List Entity
  | .mk cat nm flds => .mk cat nm flds :: entitiesF flds

def entitiesF : Fields → List Entity
  | .nil => []
  | .pcons _ rest => entitiesF rest
  | .lcons c rest => entities c ++ entitiesF rest
end

/-- Naming consistency of a graph: a (category, name) pair determines the
entity.  The spec's data model declares names "instance-unique within its
category by convention, not enforced". -/
def ConsistentNames (e : Entity) : Prop :=
  ∀ a ∈ entities e, ∀ b ∈ entities e,
    a.cat = b.cat → a.name = b.name → a = b

instance (e : Entity) : Decidable (ConsistentNames e) := by
  unfold ConsistentNames
  infer_instance

mutual
/-- Fuel sufficient for `readByKey` to fully resolve the graph of `e`. -/
def needFuel : Entity → Nat
  | .mk _ _ flds => needFuelF flds + 2

def needFuelF : Fields → Nat
  | .nil => 1
  | .pcons _ rest => needFuelF rest + 1
  | .lcons c rest => max (needFuel c) (needFuelF rest) + 1
end

/-- A database state in which every stored file is the canonical document of
a member of `S`, stored at that member's key. -/
def GoodFS (S : List Entity) (fs : FS) : Prop :=
  ∀ p dd, fsGet fs p = some dd →
    ∃ a, a ∈ S ∧ p = (a.cat, a.name) ∧ dd = canonDoc a

theorem effName_default (nm : String) :
    WriteOptions.default.effName nm = nm := rfl

@[simp]
theorem entities_mk (cat nm : String) (flds : Fields) :
    entities (.mk cat nm flds) = .mk cat nm flds :: entitiesF flds := rfl

@[simp]
theorem entitiesF_nil : entitiesF .nil = [] := rfl

@[simp]
theorem entitiesF_pcons (d : String) (rest : Fields) :
    entitiesF (.pcons d rest) = entitiesF rest := rfl

@[simp]
theorem entitiesF_lcons (c : Entity) (rest : Fields) :
    entitiesF (.lcons c rest) = entities c ++ entitiesF rest := rfl

/-- Unfolding of `ctxWrite` at the default options (`KeepExisting`/`Link`,
empty alias map). -/
theorem ctxWrite_default_mk (cat nm0 : String) (flds : Fields) (fs : FS) :
    ctxWrite .default (.mk cat nm0 flds) fs
      = (if (fsGet (serFields .default flds fs).1 (cat, nm0)).isSome then
           ((serFields .default flds fs).1,
            (serFields .default flds fs).2.1 ++ [.kept (cat, nm0)],
            (cat, nm0))
         else
           (fsSet (serFields .default flds fs).1 (cat, nm0)
              (.mk cat nm0 (serFields .default flds fs).2.2),
            (serFields .default flds fs).2.1 ++ [.created (cat, nm0)],
            (cat, nm0))) := rfl

theorem serFields_default_nil (fs : FS) :
    serFields .default .nil fs = (fs, [], .nil) := rfl

theorem serFields_default_pcons (d : String) (rest : Fields) (fs : FS) :
    serFields .default (.pcons d rest) fs
      = ((serFields .default rest fs).1, (serFields .default rest fs).2.1,
         .cons (.plain d) (serFields .default rest fs).2.2) := rfl

theorem serFields_default_lcons (c : Entity) (rest : Fields) (fs : FS) :
    serFields .default (.lcons c rest) fs
      = ((serFields .default rest (ctxWrite .default c fs).1).1,
         (ctxWrite .default c fs).2.1
           ++ (serFields .default rest (ctxWrite .default c fs).1).2.1,
         .cons (.link c.cat c.name
             (fsChecksum (ctxWrite .default c fs).1
               (ctxWrite .default c fs).2.2))
           (serFields .default rest (ctxWrite .default c fs).1).2.2) := rfl

mutual
/-- Write correctness under the default options (`KeepExisting`, `Link`, no
alias): starting from a database whose files are canonical documents of
members of a consistently named set `S`, writing `e` (with graph inside `S`)
preserves that shape, never disturbs existing files, stores the canonical
document of every entity of `e`'s graph at its key, and returns `e`'s key. -/
theorem writeGood (S : List Entity)
    (hS : ∀ a ∈ S, ∀ b ∈ S, a.cat = b.cat → a.name = b.name → a = b)
    (e : Entity) (heS : ∀ a ∈ entities e, a ∈ S) (fs : FS)
    (hfs : GoodFS S fs) :
    GoodFS S (ctxWrite .default e fs).1
    ∧ (∀ p dd, fsGet fs p = some dd →
        fsGet (ctxWrite .default e fs).1 p = some dd)
    ∧ (∀ a ∈ entities e,
        fsGet (ctxWrite .default e fs).1 (a.cat, a.name) = some (canonDoc a))
    ∧ (ctxWrite .default e fs).2.2 = (e.cat, e.name) := by
  match e with
  | .mk cat nm0 flds =>
      have heS' : ∀ a ∈ entitiesF flds, a ∈ S := fun a ha =>
        heS a (by simp [ha])
      obtain ⟨g1, m1, p1, sv1⟩ := serGood S hS flds heS' fs hfs
      have heSelf : Entity.mk cat nm0 flds ∈ S := heS _ (by simp)
      have hdata : (Doc.mk cat nm0 (serFields .default flds fs).2.2)
          = canonDoc (.mk cat nm0 flds) := by
        rw [sv1]; rfl
      rw [ctxWrite_default_mk]
      by_cases hex : (fsGet (serFields .default flds fs).1 (cat, nm0)).isSome
      · -- the canonical file already exists: it is kept unchanged and, by
        -- goodness + consistency, already holds `canonDoc e`
        obtain ⟨dd, hdd⟩ := Option.isSome_iff_exists.mp hex
        obtain ⟨a, haS, hap, had⟩ := g1 _ _ hdd
        have ha : a = .mk cat nm0 flds := by
          refine hS a haS _ heSelf ?_ ?_
          · simpa using (Prod.ext_iff.mp hap).1.symm
          · simpa using (Prod.ext_iff.mp hap).2.symm
        have hdd' : fsGet (serFields .default flds fs).1 (cat, nm0)
            = some (canonDoc (.mk cat nm0 flds)) := by
          rw [hdd, had, ha]
        refine ⟨?_, ?_, ?_, ?_⟩
        · simpa [hex] using g1
        · intro p dd' h
          simpa [hex] using m1 p dd' h
        · intro a' ha'
          simp only [entities_mk] at ha'
          rcases List.mem_cons.mp ha' with h | h
          · subst h
            simpa [hex] using hdd'
          · simpa [hex] using p1 a' h
        · simp [hex]
      · -- the canonical file is new: it is created holding `canonDoc e`
        have hnone : fsGet (serFields .default flds fs).1 (cat, nm0)
            = none := Option.not_isSome_iff_eq_none.mp hex
        refine ⟨?_, ?_, ?_, ?_⟩
        · intro p dd h
          simp only [hex, if_false, Bool.false_eq_true] at h
          by_cases hp : (cat, nm0) = p
          · subst hp
            rw [fsGet_fsSet_same] at h
            exact ⟨.mk cat nm0 flds, heSelf, rfl,
              by rw [← Option.some.inj h, hdata]⟩
          · rw [fsGet_fsSet_ne _ _ _ _ hp] at h
            exact g1 p dd h
        · intro p dd h
          have h1 := m1 p dd h
          have hp : (cat, nm0) ≠ p := by
            intro hpe
            rw [← hpe, hnone] at h1
            exact Option.noConfusion h1
          simp only [hex, if_false, Bool.false_eq_true]
          rw [fsGet_fsSet_ne _ _ _ _ hp]
          exact h1
        · intro a' ha'
          simp only [entities_mk] at ha'
          rcases List.mem_cons.mp ha' with h | h
          · subst h
            simp only [hex, if_false, Bool.false_eq_true, entityCat_mk,
                       entityName_mk]
            rw [fsGet_fsSet_same, hdata]
          · have h1 := p1 a' h
            simp only [hex, if_false, Bool.false_eq_true]
            by_cases hp : (cat, nm0) = (a'.cat, a'.name)
            · have ha2 : a' = .mk cat nm0 flds := by
                refine hS a' (heS' a' h) _ heSelf ?_ ?_
                · simpa using (Prod.ext_iff.mp hp).1.symm
                · simpa using (Prod.ext_iff.mp hp).2.symm
              rw [← hp, fsGet_fsSet_same, ha2, hdata]
            · rw [fsGet_fsSet_ne _ _ _ _ hp]
              exact h1
        · simp [hex]

theorem serGood (S : List Entity)
    (hS : ∀ a ∈ S, ∀ b ∈ S, a.cat = b.cat → a.name = b.name → a = b)
    (flds : Fields) (hfldsS : ∀ a ∈ entitiesF flds, a ∈ S) (fs : FS)
    (hfs : GoodFS S fs) :
    GoodFS S (serFields .default flds fs).1
    ∧ (∀ p dd, fsGet fs p = some dd →
        fsGet (serFields .default flds fs).1 p = some dd)
    ∧ (∀ a ∈ entitiesF flds,
        fsGet (serFields .default flds fs).1 (a.cat, a.name)
          = some (canonDoc a))
    ∧ (serFields .default flds fs).2.2 = canonFields flds := by
  match flds with
  | .nil =>
      refine ⟨by simpa [serFields_default_nil] using hfs, ?_, ?_, rfl⟩
      · intro p dd h
        simpa [serFields_default_nil] using h
      · intro a ha
        simp at ha
  | .pcons d rest =>
      obtain ⟨g1, m1, p1, sv1⟩ := serGood S hS rest hfldsS fs hfs
      exact ⟨by simpa [serFields_default_pcons] using g1,
             fun p dd h => by
               simpa [serFields_default_pcons] using m1 p dd h,
             fun a ha => by simpa [serFields_default_pcons] using p1 a ha,
             by simp [serFields_default_pcons, sv1, canonFields]⟩
  | .lcons c rest =>
      have hcS : ∀ a ∈ entities c, a ∈ S := fun a ha =>
        hfldsS a (by simp [ha])
      have hrS : ∀ a ∈ entitiesF rest, a ∈ S := fun a ha =>
        hfldsS a (by simp [ha])
      obtain ⟨gw, mw, pw, pathw⟩ := writeGood S hS c hcS fs hfs
      obtain ⟨g2, m2, p2, sv2⟩ :=
        serGood S hS rest hrS (ctxWrite .default c fs).1 gw
      have hcmem : c ∈ entities c := by
        match c with
        | .mk cc nn ff => simp
      have hcheck : fsChecksum (ctxWrite .default c fs).1
          (ctxWrite .default c fs).2.2
            = some (docChecksum (canonDoc c)) := by
        rw [pathw, fsChecksum, pw c hcmem]
        rfl
      refine ⟨?_, ?_, ?_, ?_⟩
      · simpa [serFields_default_lcons] using g2
      · intro p dd h
        simpa [serFields_default_lcons] using m2 p dd (mw p dd h)
      · intro a ha
        simp only [entitiesF_lcons] at ha
        rcases List.mem_append.mp ha with h | h
        · simpa [serFields_default_lcons] using m2 _ _ (pw a h)
        · simpa [serFields_default_lcons] using p2 a h
      · simp [serFields_default_lcons, sv2, canonFields, hcheck]
end

mutual
/-- Read correctness: if every entity of `e`'s graph has its canonical file
present, then reading `e`'s key with enough fuel returns `e` itself. -/
theorem readCanon (e : Entity) (fs : FS)
    (hp : ∀ a ∈ entities e, fsGet fs (a.cat, a.name) = some (canonDoc a))
    (fuel : Nat) (hfuel : needFuel e ≤ fuel) :
    ∃ ms, readByKey fs fuel e.cat e.name = .ok (e, ms) := by
  match e, fuel with
  | .mk cat nm0 flds, fuel =>
      match fuel, hfuel with
      | 0, hfuel => simp only [needFuel] at hfuel; omega
      | 1, hfuel => simp only [needFuel] at hfuel; omega
      | fuel + 2, hfuel =>
          have hff : needFuelF flds ≤ fuel := by
            simp only [needFuel] at hfuel; omega
          have hself := hp (.mk cat nm0 flds) (by simp [entities])
          have hp' : ∀ a ∈ entitiesF flds,
              fsGet fs (a.cat, a.name) = some (canonDoc a) := by
            intro a ha
            exact hp a (by simp [entities, ha])
          obtain ⟨ms, hms⟩ := decodeCanon flds fs hp' fuel hff
          refine ⟨ms, ?_⟩
          have hms2 : decodeF (some fs) fuel (.svalsReq (canonFields flds))
              = .ok (flds, ms) := hms
          rw [show (Entity.mk cat nm0 flds).cat = cat from rfl,
              show (Entity.mk cat nm0 flds).name = nm0 from rfl] at hself
          simp [readByKey, decodeF, hself, canonDoc, hms2]

theorem decodeCanon (flds : Fields) (fs : FS)
    (hp : ∀ a ∈ entitiesF flds, fsGet fs (a.cat, a.name) = some (canonDoc a))
    (fuel : Nat) (hfuel : needFuelF flds ≤ fuel) :
    ∃ ms, decodeSVals (some fs) fuel (canonFields flds) = .ok (flds, ms) := by
  match flds, fuel with
  | .nil, fuel =>
      match fuel, hfuel with
      | fuel + 1, _ =>
          exact ⟨[], by simp [canonFields, decodeSVals, decodeF]⟩
  | .pcons d rest, fuel =>
      match fuel, hfuel with
      | fuel + 1, hfuel =>
          obtain ⟨ms, hms⟩ := decodeCanon rest fs hp fuel
            (by simp only [needFuelF] at hfuel; omega)
          refine ⟨ms, ?_⟩
          have hms2 : decodeF (some fs) fuel (.svalsReq (canonFields rest))
              = .ok (rest, ms) := hms
          simp [canonFields, decodeSVals, decodeF, hms2]
  | .lcons c rest, fuel =>
      match fuel, hfuel with
      | fuel + 1, hfuel =>
          have hpc : ∀ a ∈ entities c,
              fsGet fs (a.cat, a.name) = some (canonDoc a) := by
            intro a ha
            exact hp a (by simp [entitiesF, ha])
          have hpr : ∀ a ∈ entitiesF rest,
              fsGet fs (a.cat, a.name) = some (canonDoc a) := by
            intro a ha
            exact hp a (by simp [entitiesF, ha])
          have hfc : needFuel c ≤ fuel := by
            simp only [needFuelF] at hfuel; omega
          have hfr : needFuelF rest ≤ fuel := by
            simp only [needFuelF] at hfuel; omega
          obtain ⟨ms1, hms1⟩ := readCanon c fs hpc fuel hfc
          obtain ⟨ms2, hms2⟩ := decodeCanon rest fs hpr fuel hfr
          refine ⟨testForChecksumMismatch (some (docChecksum (canonDoc c)))
              (fsChecksum fs (c.cat, c.name)) (c.cat, c.name)
                ++ ms1 ++ ms2, ?_⟩
          have hms1b : decodeF (some fs) fuel (.readReq c.cat c.name)
              = .ok (c, ms1) := hms1
          have hms2b : decodeF (some fs) fuel (.svalsReq (canonFields rest))
              = .ok (rest, ms2) := hms2
          simp [canonFields, decodeSVals, decodeF, hms1b, hms2b]
end

/-! ## Decimal numerals: parsing and injectivity -/

/-- Parse a decimal digit string back to a number (left inverse of
`decimalChars`). -/
def parseDec (cs : List Char) : Nat :=
  cs.foldl (fun a c => a * 10 + (c.toNat - 48)) 0

theorem digitChar_toNat (d : Nat) (h : d < 10) :
    (digitChar d).toNat = 48 + d := by
  interval_cases d <;> decide

theorem parseDec_decimalChars (n : Nat) : parseDec (decimalChars n) = n := by
  induction n using Nat.strong_induction_on with
  | _ n ih =>
      rw [decimalChars]
      by_cases h : n < 10
      · rw [dif_pos h]
        simp [parseDec, digitChar_toNat n h]
      · rw [dif_neg h]
        have hlt : n / 10 < n := Nat.div_lt_self (by omega) (by omega)
        have hih := ih (n / 10) hlt
        simp only [parseDec, List.foldl_append, List.foldl_cons,
                   List.foldl_nil] at hih ⊢
        rw [hih, digitChar_toNat (n % 10) (Nat.mod_lt n (by omega))]
        omega

theorem decimalChars_inj {m n : Nat} (h : decimalChars m = decimalChars n) :
    m = n := by
  have hm := parseDec_decimalChars m
  rw [h, parseDec_decimalChars n] at hm
  omega

theorem decimalChars_ne_nil (n : Nat) : decimalChars n ≠ [] := by
  rw [decimalChars]
  by_cases h : n < 10
  · rw [dif_pos h]
    simp
  · rw [dif_neg h]
    simp

theorem suffixName_inj (nm : String) {i j : Nat}
    (h : suffixName nm i = suffixName nm j) : i = j := by
  have hd := congrArg String.data h
  simp only [suffixName, String.data_append] at hd
  exact decimalChars_inj (List.append_cancel_left hd)

theorem suffixName_ne (nm : String) (k : Nat) : suffixName nm k ≠ nm := by
  intro h
  have hl := congrArg String.length h
  have hpos : 0 < (decimalChars k).length :=
    List.length_pos.mpr (decimalChars_ne_nil k)
  simp only [suffixName, String.length_append] at hl
  have : (String.mk (decimalChars k)).length = (decimalChars k).length := rfl
  omega

/-! ## The probing loop of `AdjustName` -/

theorem probeFrom_spec (fs : FS) (cat nm : String) (j : Nat) :
    ∀ s fuel,
      (∀ i, s ≤ i → i < s + j →
        (fsGet fs (cat, suffixName nm i)).isSome = true) →
      fsGet fs (cat, suffixName nm (s + j)) = none →
      j < fuel →
      probeFrom fs cat nm fuel s = s + j := by
  induction j with
  | zero =>
      intro s fuel hused hfree hf
      match fuel, hf with
      | fuel + 1, _ =>
          simp only [Nat.add_zero] at hfree
          simp [probeFrom, hfree]
  | succ j ih =>
      intro s fuel hused hfree hf
      match fuel, hf with
      | fuel + 1, hf =>
          have hs : (fsGet fs (cat, suffixName nm s)).isSome = true :=
            hused s le_rfl (by omega)
          have hnot : ¬fsGet fs (cat, suffixName nm s) = none := by
            intro hcon
            rw [hcon] at hs
            simp at hs
          rw [probeFrom, if_neg hnot]
          have hrec := ih (s + 1) fuel
            (fun i h1 h2 => hused i (by omega) (by omega))
            (by rw [show s + 1 + j = s + (j + 1) by omega]; exact hfree)
            (by omega)
          rw [hrec]
          omega

/-- Fields with no link-annotated entry: serializing them has no file-system
effect and produces no write events. -/
def noLinkedFields : Fields → Bool
  | .nil => true
  | .pcons _ rest => noLinkedFields rest
  | .lcons _ _ => false

theorem serFields_plain (opts : WriteOptions) (flds : Fields) (fs : FS)
    (h : noLinkedFields flds = true) :
    (serFields opts flds fs).1 = fs ∧ (serFields opts flds fs).2.1 = [] := by
  match flds with
  | .nil => simp [serFields]
  | .pcons d rest =>
      have hr := serFields_plain opts rest fs
        (by simpa [noLinkedFields] using h)
      exact ⟨by simpa [serFields] using hr.1, by simpa [serFields] using hr.2⟩
  | .lcons c rest => simp [noLinkedFields] at h

/-- One `AdjustName` write when the canonical file exists: the entity is
serialized (a no-op on the file system for link-free fields), candidates
`name_0, name_1, …` are probed in increasing order, and the document is
stored at the first unused suffix `j`, logged as created only. -/
theorem adjustName_step (opts : WriteOptions)
    (hpol : opts.nameCollisions = .adjustName) (cat nm0 : String)
    (flds : Fields) (hplain : noLinkedFields flds = true) (fs : FS) (j : Nat)
    (hcanon : (fsGet fs (cat, opts.effName nm0)).isSome = true)
    (hused : ∀ i, i < j →
      (fsGet fs (cat, suffixName (opts.effName nm0) i)).isSome = true)
    (hfree : fsGet fs (cat, suffixName (opts.effName nm0) j) = none)
    (hbound : j ≤ fs.length) :
    ctxWrite opts (.mk cat nm0 flds) fs
      = (fsSet fs (cat, suffixName (opts.effName nm0) j)
          (.mk cat nm0 (serFields opts flds fs).2.2),
         [.created (cat, suffixName (opts.effName nm0) j)],
         (cat, suffixName (opts.effName nm0) j)) := by
  obtain ⟨hfs1, hev1⟩ := serFields_plain opts flds fs hplain
  have hprobe : probeFrom fs cat (opts.effName nm0) (fs.length + 1) 0 = j :=
    by
    have := probeFrom_spec fs cat (opts.effName nm0) j 0 (fs.length + 1)
      (fun i h1 h2 => hused i (by omega)) (by simpa using hfree) (by omega)
    simpa using this
  simp only [ctxWrite, hpol, hfs1, hev1, hcanon, if_true, hprobe,
             List.nil_append]

/-- Repeatedly writing one entity (`DatabaseManager::write` called `N` times
in sequence on the evolving database). -/
def iterWrite (opts : WriteOptions) (e : Entity) :
    Nat → FS → FS × List (List WEvent) × List DbPath
  | 0, fs => (fs, [], [])
  | n + 1, fs =>
      (  (iterWrite opts e n (ctxWrite opts e fs).1).1,
         (ctxWrite opts e fs).2.1
           :: (iterWrite opts e n (ctxWrite opts e fs).1).2.1,
         (ctxWrite opts e fs).2.2
           :: (iterWrite opts e n (ctxWrite opts e fs).1).2.2)

theorem iterWrite_adjust (opts : WriteOptions)
    (hpol : opts.nameCollisions = .adjustName) (cat nm0 : String)
    (flds : Fields) (hplain : noLinkedFields flds = true) (N : Nat) :
    ∀ fs j,
      (fsGet fs (cat, opts.effName nm0)).isSome = true →
      (∀ i, i < j →
        (fsGet fs (cat, suffixName (opts.effName nm0) i)).isSome = true) →
      (∀ k, j ≤ k → fsGet fs (cat, suffixName (opts.effName nm0) k) = none) →
      j ≤ fs.length →
      (iterWrite opts (.mk cat nm0 flds) N fs).2.2
          = (List.range' j N).map
              (fun t => (cat, suffixName (opts.effName nm0) t))
      ∧ (iterWrite opts (.mk cat nm0 flds) N fs).2.1
          = (List.range' j N).map
              (fun t => [.created (cat, suffixName (opts.effName nm0) t)])
      ∧ (∀ p dd, fsGet fs p = some dd →
          fsGet (iterWrite opts (.mk cat nm0 flds) N fs).1 p = some dd)
      ∧ (∀ t, j ≤ t → t < j + N →
          (fsGet (iterWrite opts (.mk cat nm0 flds) N fs).1
            (cat, suffixName (opts.effName nm0) t)).isSome = true) := by
  induction N with
  | zero =>
      intro fs j hcanon hused hfree hbound
      refine ⟨rfl, rfl, fun p dd h => h, ?_⟩
      intro t ht1 ht2
      omega
  | succ N ih =>
      intro fs j hcanon hused hfree hbound
      set nm := opts.effName nm0 with hnm
      have hstep := adjustName_step opts hpol cat nm0 flds hplain fs j hcanon
        hused (hfree j le_rfl) hbound
      set pj : DbPath := (cat, suffixName nm j) with hpj
      set dj : Doc := .mk cat nm0 (serFields opts flds fs).2.2 with hdj
      have hlen : (fsSet fs pj dj).length = fs.length + 1 := by
        simp [fsSet, fsErase_of_absent fs pj (hfree j le_rfl)]
      have hcanon1 : (fsGet (fsSet fs pj dj) (cat, nm)).isSome = true := by
        have hne : pj ≠ (cat, nm) := by
          intro h
          exact suffixName_ne nm j (congrArg Prod.snd h)
        rw [fsGet_fsSet_ne _ _ _ _ hne]
        exact hcanon
      have hused1 : ∀ i, i < j + 1 →
          (fsGet (fsSet fs pj dj) (cat, suffixName nm i)).isSome = true := by
        intro i hi
        by_cases hij : i = j
        · subst hij
          rw [show (cat, suffixName nm i) = pj from rfl, fsGet_fsSet_same]
          rfl
        · have hne : pj ≠ (cat, suffixName nm i) := by
            intro h
            exact hij (suffixName_inj nm (congrArg Prod.snd h)).symm
          rw [fsGet_fsSet_ne _ _ _ _ hne]
          exact hused i (by omega)
      have hfree1 : ∀ k, j + 1 ≤ k →
          fsGet (fsSet fs pj dj) (cat, suffixName nm k) = none := by
        intro k hk
        have hne : pj ≠ (cat, suffixName nm k) := by
          intro h
          have := suffixName_inj nm (congrArg Prod.snd h)
          omega
        rw [fsGet_fsSet_ne _ _ _ _ hne]
        exact hfree k (by omega)
      obtain ⟨hp, he, hm, hpr⟩ := ih (fsSet fs pj dj) (j + 1) hcanon1 hused1
        hfree1 (by omega)
      have hrange : List.range' j (N + 1) = j :: List.range' (j + 1) N := rfl
      refine ⟨?_, ?_, ?_, ?_⟩
      · show (ctxWrite opts (.mk cat nm0 flds) fs).2.2
            :: (iterWrite opts (.mk cat nm0 flds) N
                 (ctxWrite opts (.mk cat nm0 flds) fs).1).2.2 = _
        rw [hstep, hrange, List.map_cons]
        exact congrArg _ hp
      · show (ctxWrite opts (.mk cat nm0 flds) fs).2.1
            :: (iterWrite opts (.mk cat nm0 flds) N
                 (ctxWrite opts (.mk cat nm0 flds) fs).1).2.1 = _
        rw [hstep, hrange, List.map_cons]
        exact congrArg _ he
      · intro p dd h
        show fsGet (iterWrite opts (.mk cat nm0 flds) N
            (ctxWrite opts (.mk cat nm0 flds) fs).1).1 p = some dd
        rw [hstep]
        apply hm
        have hne : pj ≠ p := by
          intro hpe
          rw [← hpe, hfree j le_rfl] at h
          exact Option.noConfusion h
        rw [fsGet_fsSet_ne _ _ _ _ hne]
        exact h
      · intro t ht1 ht2
        show (fsGet (iterWrite opts (.mk cat nm0 flds) N
            (ctxWrite opts (.mk cat nm0 flds) fs).1).1
              (cat, suffixName nm t)).isSome = true
        rw [hstep]
        by_cases ht0 : t = j
        · subst ht0
          have h0 : fsGet (fsSet fs pj dj) (cat, suffixName nm t)
              = some dj := fsGet_fsSet_same fs pj dj
          rw [hm _ _ h0]
          rfl
        · exact hpr t (by omega) (by omega)

/-! ## The shared-instance cache (`deserialize_arc_link`) -/

/-- One cache entry (`CacheEntry`): the shared `Arc` handle is modelled by
its allocation identity `id` together with the entity value it holds;
`checksum` is the checksum recorded when the entry was created (absent for
manually inserted entries). -/
structure CEntry where
  id : Nat
  value : Entity
  checksum : Option Nat
  deriving DecidableEq

/-- The manager's `Cache` (`HashMap<TypeId, HashMap<OsString, CacheEntry>>`),
flattened to one association list keyed by (type, name).  Entries are stored
under the `TypeId` of the concrete type that produced them (`write_cache`
and `CacheEntry::insert` both guarantee this), so the `Any` downcast of a
reused entry always succeeds and is not modelled separately. -/
abbrev CacheM := List (DbPath × CEntry)

/-- The state threaded through `deserialize_arc_link` calls sharing one
`DatabaseManager`: the manager's cache and the next fresh `Arc` allocation
identity (two handles are pointer-identical iff their identities agree). -/
structure ArcState where
  cache : CacheM
  nextId : Nat
  deriving DecidableEq

/-- The spec's reuse condition for a cache entry with stored checksum
`entryCs` under a link carrying checksum `linkCs`. -/
def ReuseOK (entryCs linkCs : Option Nat) : Prop :=
  entryCs = none ∨ linkCs = none ∨ entryCs = linkCs

instance (a b : Option Nat) : Decidable (ReuseOK a b) := by
  unfold ReuseOK
  infer_instance

/-- `read_cache` (attributes.rs:430-472): look up the entry for
(type `cat`, `link.name`); it is reusable iff its stored checksum is absent,
the link's checksum is absent, or both are present and equal; a
non-reusable entry is evicted.  Returns the possibly-evicted cache and the
reusable entry, if any. -/
def readCache (cache : CacheM) (key : DbPath) (linkCs : Option Nat) :
    CacheM × Option CEntry :=
  match fsGet cache key with
  | none => (cache, none)
  | some entry =>
      let reuse := match entry.checksum, linkCs with
        | some ce, some cl => ce == cl
        | _, _ => true
      if reuse then (cache, some entry)
      else (fsErase cache key, none)

/-- `write_cache` (attributes.rs:474-490): insert or overwrite the entry for
the link's key. -/
def writeCache (cache : CacheM) (key : DbPath) (entry : CEntry) : CacheM :=
  fsSet cache key entry

/-- The link branch of `deserialize_arc_link` (attributes.rs:424-588):
consult the cache; on a reusable entry return the cached handle with the
state unchanged; otherwise read the file fresh (`context.read`), allocate a
new handle (`Arc::new`), test for a checksum mismatch (non-fatal, logged),
store the fresh handle together with the link's checksum, and return it. -/
def deserializeArcLink (fs : FS) (fuel : Nat) (st : ArcState)
    (cat nm : String) (linkCs : Option Nat) :
    Except DbError ((Nat × Entity) × ArcState × List Mismatch) :=
  match readCache st.cache (cat, nm) linkCs with
  | (_, some entry) => .ok ((entry.id, entry.value), st, [])
  | (cache1, none) =>
      match readByKey fs fuel cat nm with
      | .error e => .error e
      | .ok (v, ms1) =>
          .ok ((st.nextId, v),
               ⟨writeCache cache1 (cat, nm) ⟨st.nextId, v, linkCs⟩,
                st.nextId + 1⟩,
               ms1 ++ testForChecksumMismatch linkCs
                 (fsChecksum fs (cat, nm)) (cat, nm))

/-- The internal reuse boolean of `read_cache` decides `ReuseOK`. -/
theorem reuse_bool_iff (a b : Option Nat) :
    ((match a, b with
      | some ce, some cl => ce == cl
      | _, _ => true) = true) ↔ ReuseOK a b := by
  cases a <;> cases b <;> simp [ReuseOK]

theorem readCache_entry (cache : CacheM) (key : DbPath) (linkCs : Option Nat)
    (entry : CEntry) (h : fsGet cache key = some entry) :
    readCache cache key linkCs
      = if ReuseOK entry.checksum linkCs then (cache, some entry)
        else (fsErase cache key, none) := by
  simp only [readCache, h]
  simp only [reuse_bool_iff]

theorem fsGet_mem {α : Type} (l : List (DbPath × α)) (k : DbPath) (e : α)
    (h : fsGet l k = some e) : (k, e) ∈ l := by
  induction l with
  | nil => simp [fsGet] at h
  | cons hd tl ih =>
      obtain ⟨q, d⟩ := hd
      by_cases hq : q = k
      · subst hq
        simp [fsGet] at h
        simp [h]
      · simp only [fsGet, hq, if_neg] at h
        exact List.mem_cons_of_mem _ (ih h)

/-- Well-formedness of the arc state: every cached handle was allocated
before the next fresh identity. -/
def ArcWF (st : ArcState) : Prop :=
  ∀ kv ∈ st.cache, kv.2.id < st.nextId

instance (st : ArcState) : Decidable (ArcWF st) := by
  unfold ArcWF
  infer_instance

theorem readByKey_ok_file_present (fs : FS) (fuel : Nat) (cat nm : String)
    (r : Entity × List Mismatch) (h : readByKey fs fuel cat nm = .ok r) :
    ∃ dd, fsGet fs (cat, nm) = some dd := by
  match fuel with
  | 0 => simp [readByKey, decodeF] at h
  | fuel + 1 =>
      rcases hg : fsGet fs (cat, nm) with _ | dd
      · simp [readByKey, decodeF, hg] at h
      · exact ⟨dd, rfl⟩

/-! ## Claim theorems -/

/-- Write options with alias map `a → b`, and an entity graph whose
link-annotated child is named `a` (the C1 scenario). -/
def c1Opts : WriteOptions :=
  { nameCollisions := .keepExisting, writeMode := .link,
    aliasMap := [("a", "b")] }

def c1Child : Entity := .mk "Material" "a" .nil

def c1Parent : Entity := .mk "Shirt" "p" (.lcons c1Child .nil)

/-- Claim C1, evaluated at the failing input.  Writing under alias map
`a → b` creates the child's file under the substituted stem `b` (and not
under `a`), but the `DatabaseLink` embedded in the parent's serialized
representation carries the *original* name `a`: `DatabaseLink::new`
(database_manager.rs:1345-1351) builds the link from `instance.name()`,
never consulting the alias map.  The claim (and the crate's own
`WriteOptions::alias` docstring) says the embedded link carries `b`. -/
theorem claim_C1_alias_substitution :
    (fsGet (ctxWrite c1Opts c1Parent []).1 ("Material", "b")).isSome = true
    ∧ fsGet (ctxWrite c1Opts c1Parent []).1 ("Material", "a") = none
    ∧ fsGet (ctxWrite c1Opts c1Parent []).1 ("Shirt", "p")
        = some (.mk "Shirt" "p"
            (.cons (.link "Material" "a"
              (some (docChecksum (.mk "Material" "a" .nil)))) .nil)) :=
  ⟨rfl, rfl, rfl⟩

/-- Claim C10: under `NameCollisions::KeepExisting`, when the parent's target
file already exists, the write still serializes the entity first — so the
file-system effects of recursively writing the link-annotated children
(`serFields`) all happen — then consults the collision policy, leaves the
pre-existing parent file unchanged, logs it as kept, and returns the
existing parent path. -/
theorem claim_C10_keepExisting_frame (opts : WriteOptions)
    (hpol : opts.nameCollisions = .keepExisting) (cat nm0 : String)
    (flds : Fields) (fs : FS) (d0 : Doc)
    (hex : fsGet fs (cat, opts.effName nm0) = some d0) :
    ctxWrite opts (.mk cat nm0 flds) fs
      = ((serFields opts flds fs).1,
         (serFields opts flds fs).2.1 ++ [.kept (cat, opts.effName nm0)],
         (cat, opts.effName nm0))
    ∧ fsGet (ctxWrite opts (.mk cat nm0 flds) fs).1 (cat, opts.effName nm0)
        = some d0 := by
  have hf := keepPreserves_fields opts hpol flds fs _ d0 hex
  have hex2 : (fsGet (serFields opts flds fs).1
      (cat, opts.effName nm0)).isSome := by rw [hf]; rfl
  refine ⟨by simp [ctxWrite, hpol, hex2], ?_⟩
  simp [ctxWrite, hpol, hex2, hf]

/-- A stale parent file for the C10 witness. -/
def c10OldDoc : Doc := .mk "Cup" "c" (.cons (.plain "stale") .nil)

def c10Fs : FS := [(("Cup", "c"), c10OldDoc)]

def c10Parent : Entity := .mk "Cup" "c" (.lcons (.mk "Material" "m" .nil) .nil)

/-- Witness for C10: concrete run in which the parent's file pre-exists. The
write returns the existing parent path, leaves the stale parent document in
place, and still creates the child's file. -/
theorem claim_C10_keepExisting_frame_witness :
    (ctxWrite WriteOptions.default c10Parent c10Fs).2.2 = ("Cup", "c")
    ∧ fsGet (ctxWrite WriteOptions.default c10Parent c10Fs).1 ("Cup", "c")
        = some c10OldDoc
    ∧ (fsGet (ctxWrite WriteOptions.default c10Parent c10Fs).1
        ("Material", "m")).isSome = true := by
  have h := claim_C10_keepExisting_frame WriteOptions.default rfl "Cup" "c"
    (.lcons (.mk "Material" "m" .nil) .nil) c10Fs c10OldDoc
    (by simp [WriteOptions.default, WriteOptions.effName, aliasLookup, c10Fs,
              fsGet])
  refine ⟨?_, ?_, ?_⟩
  · rw [show c10Parent = .mk "Cup" "c" (.lcons (.mk "Material" "m" .nil) .nil)
        from rfl, h.1]
    simp [WriteOptions.default, WriteOptions.effName, aliasLookup]
  · rw [show c10Parent = .mk "Cup" "c" (.lcons (.mk "Material" "m" .nil) .nil)
        from rfl]
    have h2 := h.2
    simpa [WriteOptions.default, WriteOptions.effName, aliasLookup] using h2
  · rfl

/-- Claim C7: under `NameCollisions::AdjustName`, when the canonical file
already exists (and no suffixed candidate is taken yet), `N` successive
writes of the same named entity write at the suffixed stems
`name_0, name_1, …, name_(N-1)` in increasing order — each write probing
from `_0` upward and taking the first unused candidate — log only `created`
events (never `overwritten` or `kept`), and leave `N` distinct suffixed
files in the database.  `hplain` restricts to entities whose serialization
touches no other files, isolating the collision policy. -/
theorem claim_C7_adjustName (opts : WriteOptions)
    (hpol : opts.nameCollisions = .adjustName) (cat nm0 : String)
    (flds : Fields) (hplain : noLinkedFields flds = true) (fs0 : FS) (N : Nat)
    (hcanon : (fsGet fs0 (cat, opts.effName nm0)).isSome = true)
    (hfresh : ∀ k, fsGet fs0 (cat, suffixName (opts.effName nm0) k) = none) :
    (iterWrite opts (.mk cat nm0 flds) N fs0).2.2
        = (List.range N).map (fun t => (cat, suffixName (opts.effName nm0) t))
    ∧ (iterWrite opts (.mk cat nm0 flds) N fs0).2.1
        = (List.range N).map
            (fun t => [.created (cat, suffixName (opts.effName nm0) t)])
    ∧ (∀ t, t < N → (fsGet (iterWrite opts (.mk cat nm0 flds) N fs0).1
          (cat, suffixName (opts.effName nm0) t)).isSome = true)
    ∧ ((iterWrite opts (.mk cat nm0 flds) N fs0).2.2).Nodup := by
  obtain ⟨hp, he, hm, hpr⟩ := iterWrite_adjust opts hpol cat nm0 flds hplain
    N fs0 0 hcanon (fun i hi => absurd hi (by omega)) (fun k _ => hfresh k)
    (by omega)
  have hinj : Function.Injective
      (fun t => (cat, suffixName (opts.effName nm0) t) : Nat → DbPath) := by
    intro a b h
    exact suffixName_inj _ (congrArg Prod.snd h)
  refine ⟨?_, ?_, ?_, ?_⟩
  · rw [hp, List.range_eq_range']
  · rw [he, List.range_eq_range']
  · intro t ht
    exact hpr t (by omega) (by omega)
  · rw [hp]
    exact (List.nodup_range' 0 N).map hinj

def c7Opts : WriteOptions :=
  { nameCollisions := .adjustName, writeMode := .link, aliasMap := [] }

def c7Fs : FS := [(("Material", "steel"), .mk "Material" "steel" .nil)]

/-- Witness for C7: with `Material/steel` already present, two successive
`AdjustName` writes of entity `steel` produce exactly the files `steel_0`
and `steel_1`, each logged as created. -/
theorem claim_C7_adjustName_witness :
    (iterWrite c7Opts (.mk "Material" "steel" (.pcons "3" .nil)) 2 c7Fs).2.2
        = [("Material", suffixName "steel" 0),
           ("Material", suffixName "steel" 1)]
    ∧ (iterWrite c7Opts (.mk "Material" "steel" (.pcons "3" .nil)) 2
        c7Fs).2.1
        = [[.created ("Material", suffixName "steel" 0)],
           [.created ("Material", suffixName "steel" 1)]] := by
  have hfresh : ∀ k,
      fsGet c7Fs ("Material", suffixName (c7Opts.effName "steel") k)
        = none := by
    intro k
    have hne : (("Material", "steel") : DbPath)
        ≠ ("Material", suffixName (c7Opts.effName "steel") k) := by
      intro h
      exact suffixName_ne _ k (congrArg Prod.snd h).symm
    simp [c7Fs, fsGet, hne]
  have h := claim_C7_adjustName c7Opts rfl "Material" "steel"
    (.pcons "3" .nil) rfl c7Fs 2 rfl hfresh
  exact ⟨by rw [h.1]; rfl, by rw [h.2.1]; rfl⟩

/-- Claim C2, amended with the naming-consistency hypothesis `hcons` (two
entities of the graph sharing category and name must be equal — without it
the claim is false, see `claim_C2_round_trip_cex`): writing an entity graph
into a fresh database under the default options (`write_mode = Link`) and
reading it back by its category and name returns a value structurally equal
to the original graph. -/
theorem claim_C2_round_trip (E : Entity) (hcons : ConsistentNames E)
    (fuel : Nat) (hfuel : needFuel E ≤ fuel) :
    ∃ ms, readByKey (ctxWrite .default E []).1 fuel E.cat E.name
        = .ok (E, ms) := by
  have hw := writeGood (entities E) hcons E (fun a ha => ha) []
    (by intro p dd h; simp [fsGet] at h)
  exact readCanon E _ hw.2.2.1 fuel hfuel

/-- The `Shirt`/`Material` scenario from the spec's §8, as a consistent
entity graph. -/
def c2Shirt : Entity :=
  .mk "Shirt" "mike"
    (.pcons "40" (.lcons (.mk "Material" "pure_cotton" (.pcons "100" .nil))
      .nil))

/-- Witness for C2: the concrete `Shirt{mike}` graph with a linked
`Material{pure_cotton}` survives the round trip. -/
theorem claim_C2_round_trip_witness :
    ConsistentNames c2Shirt
    ∧ ∃ ms, readByKey (ctxWrite .default c2Shirt []).1 8 c2Shirt.cat
        c2Shirt.name = .ok (c2Shirt, ms) :=
  ⟨by decide, claim_C2_round_trip c2Shirt (by decide) 8 (by decide)⟩

def c2DupA : Entity := .mk "M" "x" (.pcons "1" .nil)

def c2DupB : Entity := .mk "M" "x" (.pcons "2" .nil)

/-- A graph with two same-named, different-content linked children. -/
def c2Dup : Entity := .mk "P" "p" (.lcons c2DupA (.lcons c2DupB .nil))

/-- Counterexample to C2 as stated: for the graph `c2Dup`, whose two linked
children share the name `x` in category `M` but hold different data, the
default `KeepExisting` policy keeps the first child's file when the second
child is written, so reading back returns a graph with the *first* child in
both positions — not structurally equal to the original. -/
theorem claim_C2_round_trip_cex :
    (readByKey (ctxWrite .default c2Dup []).1 8 "P" "p").map Prod.fst
      = .ok (.mk "P" "p" (.lcons c2DupA (.lcons c2DupA .nil)))
    ∧ Entity.mk "P" "p" (.lcons c2DupA (.lcons c2DupA .nil)) ≠ c2Dup := by
  constructor
  · rfl
  · decide

/-- Claim C6: a decoded link whose checksum differs from the checksum of the
linked file's current bytes decodes to exactly the value the same link
without a checksum would produce — the read proceeds and never fails because
of the mismatch — and the only difference is one additional
`ChecksumMismatch` diagnostic in the `ReadInfo` channel. -/
theorem claim_C6_mismatch_nonfatal (fs : FS) (fuel : Nat) (cat nm : String)
    (c : Nat) (d : Doc) (rest : SVals) (hfile : fsGet fs (cat, nm) = some d)
    (_hne : c ≠ docChecksum d) :
    decodeSVals (some fs) fuel (.cons (.link cat nm (some c)) rest)
      = (decodeSVals (some fs) fuel (.cons (.link cat nm none) rest)).map
          (fun r => (r.1, (⟨c, docChecksum d, (cat, nm)⟩ : Mismatch) :: r.2))
    := by
  have hcs : fsChecksum fs (cat, nm) = some (docChecksum d) := by
    simp [fsChecksum, hfile]
  match fuel with
  | 0 => rfl
  | fuel + 1 =>
      cases hr : decodeF (some fs) fuel (.readReq cat nm) with
      | error e =>
          simp [decodeSVals, decodeF, hcs, testForChecksumMismatch, hr,
                Except.map]
      | ok v =>
          cases hrest : decodeF (some fs) fuel (.svalsReq rest) with
          | error e =>
              simp [decodeSVals, decodeF, hcs, testForChecksumMismatch, hr,
                    hrest, Except.map]
          | ok r =>
              simp [decodeSVals, decodeF, hcs, testForChecksumMismatch, hr,
                    hrest, Except.map]

def c6TargetDoc : Doc := .mk "Material" "m" (.cons (.plain "42") .nil)

def c6Fs : FS := [(("Material", "m"), c6TargetDoc)]

/-- Witness for C6: a concrete link carrying checksum `docChecksum + 1`
(necessarily wrong) still decodes to the file's entity; the mismatch shows up
only as the diagnostic record. -/
theorem claim_C6_mismatch_nonfatal_witness :
    decodeSVals (some c6Fs) 5
        (.cons (.link "Material" "m" (some (docChecksum c6TargetDoc + 1)))
          .nil)
      = .ok (.lcons (.mk "Material" "m" (.pcons "42" .nil)) .nil,
          [⟨docChecksum c6TargetDoc + 1, docChecksum c6TargetDoc,
            ("Material", "m")⟩]) := by
  have h := claim_C6_mismatch_nonfatal c6Fs 5 "Material" "m"
    (docChecksum c6TargetDoc + 1) c6TargetDoc .nil
    (by simp [c6Fs, fsGet]) (by decide)
  rw [h]
  rfl

/-- Claim C9: a value that structurally decodes as a `DatabaseLink` while no
read context is active fails with `NoActiveContext`; a value that decodes as
an inline entity (a link-free document) decodes successfully without any
context. -/
theorem claim_C9_no_context (fuel : Nat) :
    (∀ (cat nm : String) (cs : Option Nat) (rest : SVals),
       decodeSVals none (fuel + 1) (.cons (.link cat nm cs) rest)
         = .error .noActiveContext)
    ∧ (∀ d : Doc, linkFreeDoc d = true → docNeed d ≤ fuel →
        ∃ ent, decodeDoc none fuel d = .ok (ent, [])) := by
  constructor
  · intro cat nm cs rest
    simp [decodeSVals, decodeF]
  · intro d hd hfuel
    exact decodeDoc_no_context d fuel hd hfuel

/-- Witness for C9: a concrete link fails with `NoActiveContext` and a
concrete inline document decodes without a context. -/
theorem claim_C9_no_context_witness :
    decodeSVals none 4 (.cons (.link "Material" "m" (some 7)) .nil)
      = .error .noActiveContext
    ∧ ∃ ent, decodeDoc none 4
        (.mk "Cup" "c" (.cons (.inlineDoc (.mk "Material" "m" .nil)) .nil))
        = .ok (ent, []) :=
  ⟨(claim_C9_no_context 3).1 "Material" "m" (some 7) .nil,
   (claim_C9_no_context 4).2
     (.mk "Cup" "c" (.cons (.inlineDoc (.mk "Material" "m" .nil)) .nil))
     rfl (by decide)⟩

/-- Claim C8: if writing the serialized bytes to the target file fails
partway (after any number `k` of bytes), the partially written file is
deleted and the error is propagated, so no file remains at the target path;
a successful write leaves exactly the data at the target path. -/
theorem claim_C8_partial_write_cleanup (fs : ByteFS) (p : DbPath)
    (data : List Nat) (k : Nat) :
    (persistBytes fs p data (some k)).1 = .error .ioFailure
    ∧ fsGet (persistBytes fs p data (some k)).2 p = none
    ∧ (persistBytes fs p data none).1 = .ok ()
    ∧ fsGet (persistBytes fs p data none).2 p = some data := by
  refine ⟨rfl, ?_, rfl, ?_⟩
  · simp [persistBytes, fsGet_fsErase]
  · simp [persistBytes, fsGet_fsSet_same]

/-- Claim C4: during `deserialize_arc_link`, an existing cache entry for
(type T, link.name) is reused — the identical cached handle returned, the
state untouched — iff the entry's stored checksum is absent, the link's
checksum is absent, or both are present and equal; in every other case the
entry is evicted, the file is read fresh, and the fresh handle together with
the link's checksum overwrites the entry. -/
theorem claim_C4_cache_reuse (fs : FS) (fuel : Nat) (st : ArcState)
    (cat nm : String) (linkCs : Option Nat) (entry : CEntry) (hwf : ArcWF st)
    (hentry : fsGet st.cache (cat, nm) = some entry) (v : Entity)
    (ms1 : List Mismatch) (hread : readByKey fs fuel cat nm = .ok (v, ms1)) :
    (ReuseOK entry.checksum linkCs →
      deserializeArcLink fs fuel st cat nm linkCs
        = .ok ((entry.id, entry.value), st, []))
    ∧ (¬ReuseOK entry.checksum linkCs →
      deserializeArcLink fs fuel st cat nm linkCs
        = .ok ((st.nextId, v),
            ⟨writeCache (fsErase st.cache (cat, nm)) (cat, nm)
              ⟨st.nextId, v, linkCs⟩, st.nextId + 1⟩,
            ms1 ++ testForChecksumMismatch linkCs (fsChecksum fs (cat, nm))
              (cat, nm)))
    ∧ (∀ idv st2 ms, deserializeArcLink fs fuel st cat nm linkCs
          = .ok (idv, st2, ms) →
        (idv.1 = entry.id ↔ ReuseOK entry.checksum linkCs)) := by
  have hrc := readCache_entry st.cache (cat, nm) linkCs entry hentry
  have hid : entry.id < st.nextId := hwf _ (fsGet_mem _ _ _ hentry)
  by_cases hok : ReuseOK entry.checksum linkCs
  · rw [if_pos hok] at hrc
    refine ⟨fun _ => by simp [deserializeArcLink, hrc], fun hn => absurd hok hn,
      ?_⟩
    intro idv st2 ms h
    simp only [deserializeArcLink, hrc] at h
    have : (entry.id, entry.value) = idv :=
      congrArg Prod.fst (Except.ok.inj h)
    simp [← this, hok]
  · rw [if_neg hok] at hrc
    refine ⟨fun hy => absurd hy hok, fun _ => by
      simp [deserializeArcLink, hrc, hread], ?_⟩
    intro idv st2 ms h
    simp only [deserializeArcLink, hrc, hread] at h
    have : (st.nextId, v) = idv :=
      congrArg Prod.fst (Except.ok.inj h)
    rw [← this]
    simp only [hok, iff_false]
    intro hcon
    omega

def c4Val : Entity := .mk "M" "x" .nil

def c4Fs : FS := [(("M", "x"), .mk "M" "x" .nil)]

def c4Entry : CEntry := ⟨5, c4Val, some 1⟩

def c4St : ArcState := ⟨[(("M", "x"), c4Entry)], 6⟩

/-- Witness for C4: a concrete cache entry with checksum 1 is reused under a
link with checksum 1 (same handle 5, state untouched) and evicted under a
link with checksum 2 (fresh handle 6 overwrites the entry together with the
link's checksum). -/
theorem claim_C4_cache_reuse_witness :
    deserializeArcLink c4Fs 3 c4St "M" "x" (some 1)
        = .ok ((5, c4Val), c4St, [])
    ∧ deserializeArcLink c4Fs 3 c4St "M" "x" (some 2)
        = .ok ((6, c4Val),
            ⟨writeCache (fsErase c4St.cache ("M", "x")) ("M", "x")
              ⟨6, c4Val, some 2⟩, 7⟩,
            [] ++ testForChecksumMismatch (some 2) (fsChecksum c4Fs ("M", "x"))
              ("M", "x")) := by
  have hread : readByKey c4Fs 3 "M" "x" = .ok (c4Val, []) := rfl
  have h1 := (claim_C4_cache_reuse c4Fs 3 c4St "M" "x" (some 1) c4Entry
    (by decide) rfl c4Val [] hread).1 (by simp [ReuseOK, c4Entry])
  have h2 := (claim_C4_cache_reuse c4Fs 3 c4St "M" "x" (some 2) c4Entry
    (by decide) rfl c4Val [] hread).2.1 (by simp [ReuseOK, c4Entry])
  exact ⟨by simpa [c4Entry] using h1, by simpa [c4Entry, c4St] using h2⟩

/-- Claim C3: two shared-pointer link reads of the same (type, name) — in
one document or across read calls sharing one manager, the state threading
through — resolve to the pointer-identical shared handle when their
checksums satisfy the reuse condition; when they do not (both present,
unequal), the second read yields a freshly allocated, non-identical handle
and records a `ChecksumMismatch` diagnostic. -/
theorem claim_C3_arc_identity (fs : FS) (fuel : Nat) (st0 : ArcState)
    (cat nm : String) (c1 c2 : Option Nat)
    (hmiss : fsGet st0.cache (cat, nm) = none) (h1 : Nat × Entity)
    (st1 : ArcState) (ms1 : List Mismatch)
    (hcall1 : deserializeArcLink fs fuel st0 cat nm c1 = .ok (h1, st1, ms1)) :
    (ReuseOK c1 c2 →
      deserializeArcLink fs fuel st1 cat nm c2 = .ok (h1, st1, []))
    ∧ (¬ReuseOK c1 c2 →
      ∃ h2 st2 ms2,
        deserializeArcLink fs fuel st1 cat nm c2 = .ok (h2, st2, ms2)
        ∧ h2.1 ≠ h1.1
        ∧ ∃ m ∈ ms2, m.path = (cat, nm)) := by
  have hrc0 : readCache st0.cache (cat, nm) c1 = (st0.cache, none) := by
    simp [readCache, hmiss]
  rcases hr : readByKey fs fuel cat nm with e | ⟨v, msr⟩
  · rw [show deserializeArcLink fs fuel st0 cat nm c1 = .error e by
      simp [deserializeArcLink, hrc0, hr]] at hcall1
    exact absurd hcall1 (by simp)
  · have hc1 : deserializeArcLink fs fuel st0 cat nm c1
        = .ok ((st0.nextId, v),
            ⟨writeCache st0.cache (cat, nm) ⟨st0.nextId, v, c1⟩,
             st0.nextId + 1⟩,
            msr ++ testForChecksumMismatch c1 (fsChecksum fs (cat, nm))
              (cat, nm)) := by
      simp [deserializeArcLink, hrc0, hr]
    rw [hc1] at hcall1
    obtain ⟨hh1, hst1, _⟩ :
        (st0.nextId, v) = h1
        ∧ (⟨writeCache st0.cache (cat, nm) ⟨st0.nextId, v, c1⟩,
            st0.nextId + 1⟩ : ArcState) = st1
        ∧ (msr ++ testForChecksumMismatch c1 (fsChecksum fs (cat, nm))
            (cat, nm)) = ms1 := by
      simpa [and_assoc] using hcall1
    subst hh1
    subst hst1
    have hentry1 : fsGet (writeCache st0.cache (cat, nm)
        ⟨st0.nextId, v, c1⟩) (cat, nm) = some ⟨st0.nextId, v, c1⟩ :=
      fsGet_fsSet_same _ _ _
    have hrc1 := readCache_entry _ (cat, nm) c2 _ hentry1
    constructor
    · intro hok
      rw [if_pos hok] at hrc1
      simp [deserializeArcLink, hrc1]
    · intro hnok
      rw [if_neg hnok] at hrc1
      obtain ⟨dd, hdd⟩ := readByKey_ok_file_present fs fuel cat nm _ hr
      obtain ⟨b, hc2e⟩ : ∃ b, c2 = some b := by
        rcases c2 with _ | b
        · exact absurd (Or.inr (Or.inl rfl)) hnok
        · exact ⟨b, rfl⟩
      refine ⟨(st0.nextId + 1, v),
        ⟨writeCache (fsErase (writeCache st0.cache (cat, nm)
            ⟨st0.nextId, v, c1⟩) (cat, nm)) (cat, nm)
          ⟨st0.nextId + 1, v, c2⟩, st0.nextId + 2⟩,
        msr ++ testForChecksumMismatch c2 (fsChecksum fs (cat, nm)) (cat, nm),
        ?_, by simp, ?_⟩
      · simp [deserializeArcLink, hrc1, hr]
      · refine ⟨⟨b, docChecksum dd, (cat, nm)⟩, ?_, rfl⟩
        apply List.mem_append_right
        simp [hc2e, fsChecksum, hdd, testForChecksumMismatch]

def c3St1 : ArcState := ⟨[(("M", "x"), ⟨0, c4Val, some 1⟩)], 1⟩

/-- Witness for C3: starting from an empty cache, the first read of link
`{M, x, checksum 1}` allocates handle 0; a second read with matching
checksum returns the identical handle 0; a second read with checksum 2
returns the non-identical handle 1 and records a mismatch for `M/x`. -/
theorem claim_C3_arc_identity_witness :
    deserializeArcLink c4Fs 3 c3St1 "M" "x" (some 1)
        = .ok ((0, c4Val), c3St1, [])
    ∧ ∃ h2 st2 ms2,
        deserializeArcLink c4Fs 3 c3St1 "M" "x" (some 2)
          = .ok (h2, st2, ms2)
        ∧ h2.1 ≠ 0
        ∧ ∃ m ∈ ms2, m.path = ("M", "x") := by
  have hcall1 : deserializeArcLink c4Fs 3 ⟨[], 0⟩ "M" "x" (some 1)
      = .ok ((0, c4Val), c3St1,
          [] ++ testForChecksumMismatch (some 1)
            (fsChecksum c4Fs ("M", "x")) ("M", "x")) := rfl
  have h := claim_C3_arc_identity c4Fs 3 ⟨[], 0⟩ "M" "x" (some 1) (some 2)
    rfl (0, c4Val) c3St1
    ([] ++ testForChecksumMismatch (some 1) (fsChecksum c4Fs ("M", "x"))
      ("M", "x")) hcall1
  have hsame := claim_C3_arc_identity c4Fs 3 ⟨[], 0⟩ "M" "x" (some 1) (some 1)
    rfl (0, c4Val) c3St1
    ([] ++ testForChecksumMismatch (some 1) (fsChecksum c4Fs ("M", "x"))
      ("M", "x")) hcall1
  exact ⟨hsame.1 (by simp [ReuseOK]), h.2 (by simp [ReuseOK])⟩

/-- Claim C5, evaluated at a failing input.  `from_str` on any string that
the format deserializes successfully hits the downcast-failure path (the
inferred downcast target `io::Result<T>` never matches the deserialized
entity's `TypeId`) and returns early from the closure, leaving the
thread-local `READ_CONTEXT` set after the top-level call has returned — the
claim says every exit path clears it.  (`write` and `read` do clear it; see
`writeRead_clear_context`.) -/
theorem claim_C5_from_str_context_leak :
    (fromStrModel "Shelf" (some (.mk "Cup" "c" .nil))).2 = some ()
    ∧ (fromStrModel "Shelf" (some (.mk "Cup" "c" .nil))).2 ≠ none
    ∧ (fromStrModel "Shelf" none).2 = none :=
  ⟨rfl, by simp [fromStrModel], rfl⟩

end SerdeMosaic
